import Mathlib

/-!
Verification of the training/evaluation control loop and best-model
selection policy of `run_bc.py`.

Shallow embedding conventions:
* Python floats carrying scores are modelled as exact rationals (`ℚ`);
  the loop's logic on them is pure order comparison.  The two standard
  deviations reported by `eval_policy` involve a square root and are
  modelled in `ℝ` via `Real.sqrt`.
* Python ints are modelled as `ℤ`; Python's floor division `//` is
  `Int.fdiv`.
* The `while` loop of `train_agent` is modelled with explicit fuel:
  `RunResult.running` means the fuel was exhausted with the loop still
  going (so a loop that never terminates yields `running` for every
  fuel).
* The agent together with `eval_policy`'s interaction with it is opaque
  to the loop; the record produced by the k-th evaluation call is given
  by an oracle `ℕ → EvalRec` (the agent is mutated between calls, so
  records are indexed by cycle number).
* `run_bc.py` line 23-101 assigns `agent` only under one of the eight
  recognized `args.algo` branches and has no `else`; when no branch is
  taken, the first occurrence of `agent.train` in the loop body raises
  `UnboundLocalError` (Python local-variable semantics), before any
  training iteration runs.  This is modelled by `RunResult.raised`,
  carrying the loop state at the moment of the raise.
-/

/-- One evaluation result, mirroring the 4-tuple
`(eval_res, eval_res_std, eval_norm_res, eval_norm_res_std)` returned by
`eval_policy` and appended to `evaluations` (run_bc.py line 117-119). -/
structure EvalRec where
  res : ℚ
  resStd : ℚ
  normRes : ℚ
  normResStd : ℚ
deriving DecidableEq, Repr

/-- The content of the `best_score.txt` JSON object
(run_bc.py line 129-131). -/
structure BestRes where
  epoch : ℤ
  bestNormAvg : ℚ
  bestNormStd : ℚ
  bestRawAvg : ℚ
  bestRawStd : ℚ
deriving DecidableEq, Repr

/-- State of the best-model selection policy: the running `best_score`
variable (line 106), the persisted `best_score.txt` content (`none` when
the file was never written), and how many times `agent.save_model` was
called (line 127). -/
structure SelState where
  bestScore : ℚ
  bestRes : Option BestRes
  saves : ℕ
deriving DecidableEq, Repr

/-- Initial selection state: `best_score = -100.` (line 106), no
`best_score.txt` written yet, no checkpoint saved yet. -/
def initSel : SelState := ⟨-100, none, 0⟩

/-- The `best_res` dictionary built on line 129-131 from the current
evaluation record and `curr_epoch`. -/
def mkBest (p : EvalRec × ℤ) : BestRes :=
  ⟨p.2, p.1.normRes, p.1.normResStd, p.1.res, p.1.resStd⟩

/-- One pass through the selection block (run_bc.py line 125-133):
`if eval_norm_res >= best_score:` save the model when
`args.save_best_model` is set, overwrite `best_score`, and rewrite
`best_score.txt`. -/
def considerStep (saveBest : Bool) (s : SelState) (r : EvalRec) (epoch : ℤ) : SelState :=
  if s.bestScore ≤ r.normRes then
    { bestScore := r.normRes
      bestRes := some (mkBest (r, epoch))
      saves := s.saves + (if saveBest then 1 else 0) }
  else s

/-- Feeding a whole sequence of evaluation records (each with the
`curr_epoch` at which it was considered) through the selection policy,
starting from the fresh state. -/
def runSelection (saveBest : Bool) (recs : List (EvalRec × ℤ)) : SelState :=
  recs.foldl (fun s p => considerStep saveBest s p.1 p.2) initSel

/-- Static configuration of `train_agent`, the fields of `args` the loop
reads (all Python ints / bool). -/
structure Config where
  numEpochs : ℤ
  numStepsPerEpoch : ℤ
  evalFreq : ℤ
  saveBestModel : Bool
  seed : ℤ
  envName : String

/-- `max_timesteps = args.num_epochs * args.num_steps_per_epoch`
(run_bc.py line 105). -/
def maxTimesteps (cfg : Config) : ℤ := cfg.numEpochs * cfg.numStepsPerEpoch

/-- `iterations = int(args.eval_freq * args.num_steps_per_epoch)`
(run_bc.py line 108; `int()` on an int product is the identity). -/
def iterPerCycle (cfg : Config) : ℤ := cfg.evalFreq * cfg.numStepsPerEpoch

/-- Log of one pass through the loop body: the iteration count passed to
`agent.train`, the `curr_epoch` computed on line 114, the `seed`
argument passed to `eval_policy` on line 117 (`args.seed`), and the
snapshot of `evaluations` written by `np.save` on line 120 right after
the append. -/
structure CycleLog where
  burst : ℤ
  currEpoch : ℤ
  evalSeed : ℤ
  savedEvals : List EvalRec
deriving DecidableEq, Repr

/-- Mutable state of `train_agent`'s loop. -/
structure LoopState where
  trainingIters : ℤ
  evaluations : List EvalRec
  sel : SelState
  cycles : List CycleLog
deriving DecidableEq, Repr

/-- State just before entering the `while` loop (run_bc.py line 103-106). -/
def initLoop : LoopState := ⟨0, [], initSel, []⟩

/-- One pass through the body of the `while` loop (run_bc.py line
107-133): train for `iterations` steps, advance `training_iters`,
compute `curr_epoch = training_iters // num_steps_per_epoch`, run
`eval_policy(agent, args.env_name, args.seed, ...)`, append the record,
persist the history, then run the selection block. -/
def cycleBody (cfg : Config) (oracle : ℕ → EvalRec) (s : LoopState) : LoopState :=
  let iterations := iterPerCycle cfg
  let t := s.trainingIters + iterations
  let currEpoch := Int.fdiv t cfg.numStepsPerEpoch
  let r := oracle s.evaluations.length
  let evals := s.evaluations ++ [r]
  { trainingIters := t
    evaluations := evals
    sel := considerStep cfg.saveBestModel s.sel r currEpoch
    cycles := s.cycles ++ [⟨iterations, currEpoch, cfg.seed, evals⟩] }

/-- The loop state after exactly `n` completed passes through the body,
starting from `initLoop`. -/
def stateAfter (cfg : Config) (oracle : ℕ → EvalRec) : ℕ → LoopState
  | 0 => initLoop
  | n + 1 => cycleBody cfg oracle (stateAfter cfg oracle n)

/-- Outcome of running the loop with a given amount of fuel. -/
inductive RunResult where
  | finished (s : LoopState)
  | running
  | raised (s : LoopState)
deriving DecidableEq, Repr

/-- Fuel-indexed model of `while training_iters < max_timesteps:`
(run_bc.py line 107).  `agentOk = false` models an unbound `agent`
local: the body's first statement `agent.train(...)` (line 110) raises
before performing any work. -/
def runLoop (cfg : Config) (oracle : ℕ → EvalRec) (agentOk : Bool) : ℕ → LoopState → RunResult
  | 0, s => if s.trainingIters < maxTimesteps cfg then .running else .finished s
  | f + 1, s =>
    if s.trainingIters < maxTimesteps cfg then
      if agentOk then runLoop cfg oracle agentOk f (cycleBody cfg oracle s)
      else .raised s
    else .finished s

/-- The `args.algo` values for which the if/elif chain on run_bc.py line
23-101 assigns `agent`. -/
def recognizedAlgos : List String :=
  ["bc", "bc_mle", "bc_cvae", "bc_kl", "bc_mmd", "bc_w", "bc_gan", "bc_gan2"]

/-- The loop part of `train_agent` (run_bc.py line 103-133): `agent` is
bound exactly when `algo` is one of the recognized variants. -/
def train_agent (algo : String) (cfg : Config) (oracle : ℕ → EvalRec) (fuel : ℕ) : RunResult :=
  runLoop cfg oracle (decide (algo ∈ recognizedAlgos)) fuel initLoop

/-! ### The rollout evaluator `eval_policy` (run_bc.py line 138-160) -/

/-- Environment interactions performed by `eval_policy`, in order:
`gym.make`, `eval_env.seed`, per-episode `reset` and `step` calls. -/
inductive EnvOp where
  | make (name : String)
  | seed (n : ℤ)
  | reset
  | step
deriving DecidableEq, Repr

/-- Discriminator for `gym.make` events. -/
def EnvOp.isMake : EnvOp → Bool
  | .make _ => true
  | _ => false

/-- Discriminator for `eval_env.seed` events. -/
def EnvOp.isSeed : EnvOp → Bool
  | .seed _ => true
  | _ => false

/-- `np.mean` of a list of scores. -/
def listMean (l : List ℚ) : ℚ := l.sum / (l.length : ℚ)

/-- The population variance underlying `np.std` (default `ddof=0`):
mean of squared deviations from the mean. -/
def pvarQ (l : List ℚ) : ℚ := listMean (l.map (fun x => (x - listMean l) ^ 2))

/-- `np.std` of a list of scores: square root of the population
variance. -/
noncomputable def pstd (l : List ℚ) : ℝ := Real.sqrt ((pvarQ l : ℚ) : ℝ)

/-- The four aggregate values returned by `eval_policy`
(run_bc.py line 160). -/
structure EvalResult where
  avgReward : ℚ
  stdReward : ℝ
  avgNormScore : ℚ
  stdNormScore : ℝ

/-- Model of `eval_policy(policy, env_name, seed, eval_episodes)`
(run_bc.py line 138-160).  The policy/environment dynamics are opaque;
episode `i` yields the finite stream `episodeRewards i` of per-step
rewards, so that episode's `traj_return` is its sum.  `f` is
`eval_env.get_normalized_score`.  The returned trace records every
environment construction/seeding/reset/step, in program order. -/
noncomputable def eval_policy (envName : String) (seed : ℤ) (f : ℚ → ℚ)
    (episodeRewards : ℕ → List ℚ) (evalEpisodes : ℕ) : EvalResult × List EnvOp :=
  let scores := (List.range evalEpisodes).map (fun i => (episodeRewards i).sum)
  let avgReward := listMean scores
  let stdReward := pstd scores
  let normalizedScores := scores.map f
  let avgNormScore := f avgReward
  let stdNormScore := pstd normalizedScores
  (⟨avgReward, stdReward, avgNormScore, stdNormScore⟩,
    EnvOp.make envName :: EnvOp.seed (seed + 100) ::
      (List.range evalEpisodes).flatMap
        (fun i => EnvOp.reset :: (episodeRewards i).map (fun _ => EnvOp.step)))

/-! ### Helper lemmas: folded maxima -/

lemma le_foldl_max (a : ℚ) (l : List ℚ) : a ≤ l.foldl max a := by
  induction l generalizing a with
  | nil => exact le_refl a
  | cons b l ih => exact le_trans (le_max_left a b) (ih (max a b))

lemma mem_le_foldl_max (l : List ℚ) : ∀ (a x : ℚ), x ∈ l → x ≤ l.foldl max a := by
  induction l with
  | nil => intro a x hx; cases hx
  | cons b l ih =>
    intro a x hx
    rcases List.mem_cons.mp hx with h | h
    · subst h
      exact le_trans (le_max_right a x) (le_foldl_max _ _)
    · exact ih (max a b) x h

lemma foldl_max_choice (l : List ℚ) (a : ℚ) :
    l.foldl max a = a ∨ l.foldl max a ∈ l := by
  induction l generalizing a with
  | nil => exact Or.inl rfl
  | cons b l ih =>
    rcases ih (max a b) with h | h
    · rw [List.foldl_cons, h]
      rcases max_choice a b with h' | h'
      · exact Or.inl h'
      · exact Or.inr (by rw [h']; exact List.mem_cons_self b l)
    · exact Or.inr (List.mem_cons_of_mem b h)

/-! ### Helper lemmas: the selection fold -/

/-- `best_score` after a selection fold from an arbitrary state is the
maximum of the starting `best_score` and all considered normalized
averages. -/
lemma foldl_consider_bestScore (sb : Bool) (recs : List (EvalRec × ℤ)) :
    ∀ s : SelState,
      (recs.foldl (fun s p => considerStep sb s p.1 p.2) s).bestScore =
        (recs.map (fun p => p.1.normRes)).foldl max s.bestScore := by
  induction recs with
  | nil => intro s; rfl
  | cons p l ih =>
    intro s
    rw [List.foldl_cons, List.map_cons, List.foldl_cons, ih]
    have hstep : (considerStep sb s p.1 p.2).bestScore = max s.bestScore p.1.normRes := by
      rw [considerStep, max_def]
      split <;> rfl
    rw [hstep]

lemma runSelection_bestScore (sb : Bool) (recs : List (EvalRec × ℤ)) :
    (runSelection sb recs).bestScore =
      (recs.map (fun p => p.1.normRes)).foldl max (-100) := by
  rw [runSelection, foldl_consider_bestScore]
  rfl

/-- The initial sentinel is a lower bound on `best_score` forever. -/
lemma neg_hundred_le_runSelection_bestScore (sb : Bool) (recs : List (EvalRec × ℤ)) :
    (-100 : ℚ) ≤ (runSelection sb recs).bestScore := by
  rw [runSelection_bestScore]
  exact le_foldl_max _ _

lemma runSelection_append_single (sb : Bool) (recs : List (EvalRec × ℤ)) (p : EvalRec × ℤ) :
    runSelection sb (recs ++ [p]) =
      considerStep sb (runSelection sb recs) p.1 p.2 := by
  rw [runSelection, runSelection, List.foldl_append]
  rfl

/-- When every considered normalized average is strictly below the
sentinel, the selection state never moves. -/
lemma runSelection_all_below (sb : Bool) (recs : List (EvalRec × ℤ))
    (h : ∀ p ∈ recs, p.1.normRes < -100) :
    runSelection sb recs = initSel := by
  induction recs using List.reverseRecOn with
  | nil => rfl
  | append_singleton l p ih =>
    have hl : ∀ q ∈ l, q.1.normRes < -100 := fun q hq => h q (List.mem_append_left _ hq)
    rw [runSelection_append_single, ih hl, considerStep, if_neg]
    push_neg
    have := h p (List.mem_append_right _ (List.mem_singleton_self p))
    calc p.1.normRes < -100 := this
      _ = initSel.bestScore := rfl

/-- Full characterization of the persisted best record when at least
one considered normalized average reaches the `-100` sentinel: the
persisted record is built from the last record attaining the maximum
normalized average. -/
lemma runSelection_char_some (sb : Bool) (recs : List (EvalRec × ℤ))
    (h : ∃ p ∈ recs, -100 ≤ p.1.normRes) :
    ∃ i : ℕ, ∃ hi : i < recs.length,
      (runSelection sb recs).bestScore = (recs.get ⟨i, hi⟩).1.normRes ∧
      (runSelection sb recs).bestRes = some (mkBest (recs.get ⟨i, hi⟩)) ∧
      (∀ p ∈ recs, p.1.normRes ≤ (recs.get ⟨i, hi⟩).1.normRes) ∧
      (∀ j, ∀ hj : j < recs.length, i < j →
        (recs.get ⟨j, hj⟩).1.normRes < (recs.get ⟨i, hi⟩).1.normRes) := by
  induction recs using List.reverseRecOn with
  | nil =>
    rcases h with ⟨p, hp, _⟩
    cases hp
  | append_singleton l r ih =>
    have hlen : (l ++ [r]).length = l.length + 1 := by simp
    by_cases hr : (runSelection sb l).bestScore ≤ r.1.normRes
    · -- the last record triggers an update and is itself the last argmax
      refine ⟨l.length, by omega, ?_⟩
      have hget : (l ++ [r]).get ⟨l.length, by omega⟩ = r := by
        simp [List.get_eq_getElem]
      rw [runSelection_append_single, hget, considerStep, if_pos hr]
      refine ⟨rfl, rfl, ?_, ?_⟩
      · intro p hp
        rcases List.mem_append.mp hp with hp | hp
        · exact le_trans
            (by
              rw [runSelection_bestScore] at hr
              exact le_trans
                (mem_le_foldl_max _ _ _ (List.mem_map_of_mem (fun p => p.1.normRes) hp))
                hr)
            (le_refl _)
        · rw [List.mem_singleton.mp hp]
      · intro j hj hlt
        omega
    · -- the last record is ignored; the characterization of the prefix lifts
      push_neg at hr
      have hM : (-100 : ℚ) ≤ (runSelection sb l).bestScore :=
        neg_hundred_le_runSelection_bestScore sb l
      have hl : ∃ p ∈ l, -100 ≤ p.1.normRes := by
        rcases h with ⟨p, hp, hple⟩
        rcases List.mem_append.mp hp with hp | hp
        · exact ⟨p, hp, hple⟩
        · -- the witness is `r` itself; then the prefix maximum is above -100
          have hrle : (-100 : ℚ) ≤ r.1.normRes := by
            rw [List.mem_singleton.mp hp] at hple
            exact hple
          have hMgt : (-100 : ℚ) < (runSelection sb l).bestScore :=
            lt_of_le_of_lt hrle hr
          rw [runSelection_bestScore] at hMgt hr
          rcases foldl_max_choice (l.map fun p => p.1.normRes) (-100) with hc | hc
          · rw [hc] at hMgt
            exact absurd hMgt (lt_irrefl _)
          · rcases List.mem_map.mp hc with ⟨q, hq, hqv⟩
            exact ⟨q, hq, by rw [hqv]; exact le_foldl_max _ _⟩
      rcases ih hl with ⟨i, hi, c1, c2, c3, c4⟩
      have heq : runSelection sb (l ++ [r]) = runSelection sb l := by
        rw [runSelection_append_single, considerStep, if_neg (not_le.mpr hr)]
      refine ⟨i, by omega, ?_⟩
      have hget : (l ++ [r]).get ⟨i, by omega⟩ = l.get ⟨i, hi⟩ := by
        simp [List.get_eq_getElem, List.getElem_append_left hi]
      rw [heq, hget]
      refine ⟨c1, c2, ?_, ?_⟩
      · intro p hp
        rcases List.mem_append.mp hp with hp | hp
        · exact c3 p hp
        · rw [List.mem_singleton.mp hp]
          rw [← c1]
          exact le_of_lt hr
      · intro j hj hlt
        by_cases hjl : j < l.length
        · have : (l ++ [r]).get ⟨j, hj⟩ = l.get ⟨j, hjl⟩ := by
            simp [List.get_eq_getElem, List.getElem_append_left hjl]
          rw [this]
          exact c4 j hjl hlt
        · have hjeq : j = l.length := by omega
          subst hjeq
          have : (l ++ [r]).get ⟨l.length, hj⟩ = r := by
            simp [List.get_eq_getElem]
          rw [this, ← c1]
          exact hr

/-- The "last record attaining the maximum" position is unique. -/
lemma last_argmax_unique (recs : List (EvalRec × ℤ)) (i j : ℕ)
    (hi : i < recs.length) (hj : j < recs.length)
    (hmaxi : ∀ p ∈ recs, p.1.normRes ≤ (recs.get ⟨i, hi⟩).1.normRes)
    (hlasti : ∀ k, ∀ hk : k < recs.length, i < k →
      (recs.get ⟨k, hk⟩).1.normRes < (recs.get ⟨i, hi⟩).1.normRes)
    (hmaxj : ∀ p ∈ recs, p.1.normRes ≤ (recs.get ⟨j, hj⟩).1.normRes)
    (hlastj : ∀ k, ∀ hk : k < recs.length, j < k →
      (recs.get ⟨k, hk⟩).1.normRes < (recs.get ⟨j, hj⟩).1.normRes) :
    i = j := by
  rcases lt_trichotomy i j with hlt | heq | hgt
  · have h1 := hlasti j hj hlt
    have h2 := hmaxj _ (List.get_mem recs i hi)
    exact absurd (lt_of_le_of_lt h2 h1) (lt_irrefl _)
  · exact heq
  · have h1 := hlastj i hi hgt
    have h2 := hmaxi _ (List.get_mem recs j hj)
    exact absurd (lt_of_le_of_lt h2 h1) (lt_irrefl _)

/-! ### Helper lemmas: the epoch loop -/

lemma cycleBody_trainingIters (cfg : Config) (o : ℕ → EvalRec) (s : LoopState) :
    (cycleBody cfg o s).trainingIters = s.trainingIters + iterPerCycle cfg := rfl

lemma cycleBody_evaluations (cfg : Config) (o : ℕ → EvalRec) (s : LoopState) :
    (cycleBody cfg o s).evaluations = s.evaluations ++ [o s.evaluations.length] := rfl

lemma cycleBody_cycles (cfg : Config) (o : ℕ → EvalRec) (s : LoopState) :
    (cycleBody cfg o s).cycles = s.cycles ++
      [⟨iterPerCycle cfg,
        Int.fdiv (s.trainingIters + iterPerCycle cfg) cfg.numStepsPerEpoch,
        cfg.seed, s.evaluations ++ [o s.evaluations.length]⟩] := rfl

lemma cycleBody_sel (cfg : Config) (o : ℕ → EvalRec) (s : LoopState) :
    (cycleBody cfg o s).sel = considerStep cfg.saveBestModel s.sel (o s.evaluations.length)
      (Int.fdiv (s.trainingIters + iterPerCycle cfg) cfg.numStepsPerEpoch) := rfl

lemma stateAfter_trainingIters (cfg : Config) (o : ℕ → EvalRec) (n : ℕ) :
    (stateAfter cfg o n).trainingIters = (n : ℤ) * iterPerCycle cfg := by
  induction n with
  | zero => simp [stateAfter, initLoop]
  | succ n ih =>
    rw [stateAfter, cycleBody_trainingIters, ih]
    push_cast
    ring

lemma stateAfter_evaluations (cfg : Config) (o : ℕ → EvalRec) (n : ℕ) :
    (stateAfter cfg o n).evaluations = (List.range n).map o := by
  induction n with
  | zero => rfl
  | succ n ih =>
    rw [stateAfter, cycleBody_evaluations, ih, List.range_succ, List.map_append]
    simp

/-- The epoch reported after the `(k+1)`-st burst. -/
def epochAt (cfg : Config) (k : ℕ) : ℤ :=
  Int.fdiv (((k : ℤ) + 1) * iterPerCycle cfg) cfg.numStepsPerEpoch

/-- The log entry of the `(k+1)`-st pass through the loop body. -/
def cycleLogAt (cfg : Config) (o : ℕ → EvalRec) (k : ℕ) : CycleLog :=
  ⟨iterPerCycle cfg, epochAt cfg k, cfg.seed, (List.range (k + 1)).map o⟩

lemma stateAfter_cycles (cfg : Config) (o : ℕ → EvalRec) (n : ℕ) :
    (stateAfter cfg o n).cycles = (List.range n).map (cycleLogAt cfg o) := by
  induction n with
  | zero => rfl
  | succ n ih =>
    rw [stateAfter, cycleBody_cycles, ih, stateAfter_trainingIters,
      stateAfter_evaluations, List.range_succ, List.map_append]
    have hlen : ((List.range n).map o).length = n := by simp
    rw [hlen]
    have harith : ((n : ℤ)) * iterPerCycle cfg + iterPerCycle cfg =
        ((n : ℤ) + 1) * iterPerCycle cfg := by ring
    rw [harith]
    have : (List.range (n + 1)).map o = (List.range n).map o ++ [o n] := by
      rw [List.range_succ, List.map_append]
      rfl
    rw [List.map_singleton, cycleLogAt, epochAt, ← this]

lemma stateAfter_sel (cfg : Config) (o : ℕ → EvalRec) (n : ℕ) :
    (stateAfter cfg o n).sel =
      runSelection cfg.saveBestModel ((List.range n).map (fun k => (o k, epochAt cfg k))) := by
  induction n with
  | zero => rfl
  | succ n ih =>
    rw [stateAfter, cycleBody_sel, ih, stateAfter_trainingIters, stateAfter_evaluations,
      List.range_succ, List.map_append, List.map_singleton, runSelection_append_single]
    have hlen : ((List.range n).map o).length = n := by simp
    rw [hlen]
    have harith : ((n : ℤ)) * iterPerCycle cfg + iterPerCycle cfg =
        ((n : ℤ) + 1) * iterPerCycle cfg := by ring
    rw [harith]
    rfl

lemma runLoop_stop (cfg : Config) (o : ℕ → EvalRec) (ok : Bool) (f : ℕ) (s : LoopState)
    (h : ¬ s.trainingIters < maxTimesteps cfg) :
    runLoop cfg o ok f s = .finished s := by
  cases f with
  | zero => rw [runLoop, if_neg h]
  | succ f => rw [runLoop, if_neg h]

lemma runLoop_raised (cfg : Config) (o : ℕ → EvalRec) (f : ℕ) (s : LoopState)
    (h : s.trainingIters < maxTimesteps cfg) :
    runLoop cfg o false (f + 1) s = .raised s := by
  rw [runLoop, if_pos h]
  rfl

/-- A loop with a zero per-cycle iteration count and a positive budget
spins forever: every fuel is exhausted. -/
lemma runLoop_never (cfg : Config) (o : ℕ → EvalRec) (h0 : iterPerCycle cfg = 0) :
    ∀ (f : ℕ) (s : LoopState), s.trainingIters < maxTimesteps cfg →
      runLoop cfg o true f s = .running := by
  intro f
  induction f with
  | zero =>
    intro s hs
    rw [runLoop, if_pos hs]
  | succ f ih =>
    intro s hs
    rw [runLoop, if_pos hs, if_pos rfl]
    apply ih
    rw [cycleBody_trainingIters, h0, add_zero]
    exact hs

/-- Running the loop from the state after `m` cycles with `f` more
cycles of fuel terminates exactly when the budget is exhausted after
`m + f` cycles. -/
lemma runLoop_from (cfg : Config) (o : ℕ → EvalRec) (f : ℕ) :
    ∀ m : ℕ,
      maxTimesteps cfg ≤ ((m + f : ℕ) : ℤ) * iterPerCycle cfg →
      (∀ j : ℕ, j < m + f → ((j : ℕ) : ℤ) * iterPerCycle cfg < maxTimesteps cfg) →
      runLoop cfg o true f (stateAfter cfg o m) = .finished (stateAfter cfg o (m + f)) := by
  induction f with
  | zero =>
    intro m h1 _
    rw [Nat.add_zero]
    apply runLoop_stop
    rw [stateAfter_trainingIters]
    rw [Nat.add_zero] at h1
    exact not_lt.mpr h1
  | succ f ih =>
    intro m h1 h2
    have hm : ((m : ℕ) : ℤ) * iterPerCycle cfg < maxTimesteps cfg := h2 m (by omega)
    have hcond : (stateAfter cfg o m).trainingIters < maxTimesteps cfg := by
      rw [stateAfter_trainingIters]
      exact hm
    rw [runLoop, if_pos hcond, if_pos rfl]
    have hstep : cycleBody cfg o (stateAfter cfg o m) = stateAfter cfg o (m + 1) := rfl
    rw [hstep]
    have hre : m + 1 + f = m + (f + 1) := by omega
    have h1' : maxTimesteps cfg ≤ ((m + 1 + f : ℕ) : ℤ) * iterPerCycle cfg := by
      rw [hre]; exact h1
    have h2' : ∀ j : ℕ, j < m + 1 + f → ((j : ℕ) : ℤ) * iterPerCycle cfg < maxTimesteps cfg := by
      rw [hre]; exact h2
    rw [ih (m + 1) h1' h2', hre]

/-! ### Helper lemmas: ceiling-division arithmetic -/

lemma ceilDiv_facts (a c : ℕ) (ha : 1 ≤ a) (hc : 1 ≤ c) :
    a ≤ ((a + c - 1) / c) * c ∧
    (∀ j : ℕ, j < (a + c - 1) / c → j * c < a) ∧
    ((a + c - 1) / c) * c ≤ a + c - 1 := by
  have hq : a = c * (a / c) + a % c := (Nat.div_add_mod a c).symm
  have hr : a % c < c := Nat.mod_lt a hc
  set q := a / c with hqdef
  set r := a % c with hrdef
  have hN : (a + c - 1) / c = if r = 0 then q else q + 1 := by
    by_cases h0 : r = 0
    · rw [if_pos h0]
      have : a + c - 1 = c * q + (c - 1) := by omega
      rw [this, Nat.mul_add_div hc, Nat.div_eq_of_lt (by omega), Nat.add_zero]
    · rw [if_neg h0]
      have hd : c * (q + 1) = c * q + c := by ring
      have : a + c - 1 = c * (q + 1) + (r - 1) := by omega
      rw [this, Nat.mul_add_div hc, Nat.div_eq_of_lt (by omega), Nat.add_zero]
  rw [hN]
  by_cases h0 : r = 0
  · rw [if_pos h0]
    refine ⟨?_, ?_, ?_⟩
    · calc a = c * q := by omega
        _ = q * c := Nat.mul_comm c q
        _ ≤ q * c := le_refl _
    · intro j hj
      calc j * c < q * c := (Nat.mul_lt_mul_right hc).mpr hj
        _ = c * q := Nat.mul_comm q c
        _ ≤ a := by omega
    · calc q * c = c * q := Nat.mul_comm q c
        _ ≤ a + c - 1 := by omega
  · rw [if_neg h0]
    refine ⟨?_, ?_, ?_⟩
    · calc a = c * q + r := hq
        _ ≤ c * q + c := by omega
        _ = (q + 1) * c := by ring
    · intro j hj
      have hjq : j ≤ q := by omega
      calc j * c ≤ q * c := Nat.mul_le_mul_right c hjq
        _ = c * q := Nat.mul_comm q c
        _ < a := by omega
    · calc (q + 1) * c = c * q + c := by ring
        _ ≤ a + c - 1 := by omega

/-- With positive `num_epochs`, `num_steps_per_epoch` and `eval_freq`
(given as naturals), a run with a recognized algorithm and fuel
`⌈num_epochs / eval_freq⌉` finishes, in the state after exactly that
many cycles. -/
lemma train_agent_finishes (a b c : ℕ) (ha : 1 ≤ a) (hb : 1 ≤ b) (hc : 1 ≤ c)
    (sb : Bool) (seed : ℤ) (env : String) (algo : String)
    (halgo : algo ∈ recognizedAlgos) (o : ℕ → EvalRec) :
    train_agent algo ⟨(a : ℤ), (b : ℤ), (c : ℤ), sb, seed, env⟩ o ((a + c - 1) / c) =
      .finished (stateAfter ⟨(a : ℤ), (b : ℤ), (c : ℤ), sb, seed, env⟩ o ((a + c - 1) / c)) := by
  rcases ceilDiv_facts a c ha hc with ⟨f1, f2, _⟩
  set cfg : Config := ⟨(a : ℤ), (b : ℤ), (c : ℤ), sb, seed, env⟩ with hcfg
  set N := (a + c - 1) / c with hNdef
  have hmaxT : maxTimesteps cfg = (a : ℤ) * (b : ℤ) := rfl
  have hiter : iterPerCycle cfg = (c : ℤ) * (b : ℤ) := rfl
  rw [train_agent, decide_eq_true halgo]
  have := runLoop_from cfg o N 0 ?_ ?_
  · rw [Nat.zero_add] at this
    exact this
  · rw [Nat.zero_add, hmaxT, hiter]
    have hnat : a * b ≤ N * c * b := Nat.mul_le_mul_right b f1
    calc (a : ℤ) * (b : ℤ) = ((a * b : ℕ) : ℤ) := by push_cast; ring
      _ ≤ ((N * c * b : ℕ) : ℤ) := by exact_mod_cast hnat
      _ = ((N : ℕ) : ℤ) * ((c : ℤ) * (b : ℤ)) := by push_cast; ring
  · intro j hj
    rw [Nat.zero_add] at hj
    rw [hmaxT, hiter]
    have hnat : j * c * b < a * b := Nat.mul_lt_mul_of_lt_of_le (f2 j hj) (le_refl b) hb
    calc ((j : ℕ) : ℤ) * ((c : ℤ) * (b : ℤ)) = ((j * c * b : ℕ) : ℤ) := by push_cast; ring
      _ < ((a * b : ℕ) : ℤ) := by exact_mod_cast hnat
      _ = (a : ℤ) * (b : ℤ) := by push_cast; ring

/-! ### Claim theorems: selection policy -/

/-- C1 (amended): for any sequence of evaluation records fed through the
selection step, PROVIDED at least one considered normalized average
reaches the initial sentinel `-100`, the persisted best record is built
from the last record attaining the maximum normalized average: its
normalized average is an upper bound of all considered averages, every
later record is strictly below it (ties resolve to the most recent
epoch), and its epoch is that record's epoch. -/
theorem selection_best_invariant_C1 (sb : Bool) (recs : List (EvalRec × ℤ))
    (h : ∃ p ∈ recs, -100 ≤ p.1.normRes) :
    ∃ i : ℕ, ∃ hi : i < recs.length,
      (runSelection sb recs).bestRes = some (mkBest (recs.get ⟨i, hi⟩)) ∧
      (∀ p ∈ recs, p.1.normRes ≤ (recs.get ⟨i, hi⟩).1.normRes) ∧
      (∀ j, ∀ hj : j < recs.length, i < j →
        (recs.get ⟨j, hj⟩).1.normRes < (recs.get ⟨i, hi⟩).1.normRes) := by
  rcases runSelection_char_some sb recs h with ⟨i, hi, _, c2, c3, c4⟩
  exact ⟨i, hi, c2, c3, c4⟩

/-- C1 counterexample to the claim as stated: a single considered record
with normalized average `-200` (below the `-100` initialization of
`best_score`) leaves the best record unwritten, so the persisted best
record's normalized average does not equal the maximum considered so
far. -/
theorem selection_best_invariant_C1_cex :
    (runSelection false [(⟨0, 0, -200, 0⟩, 1)]).bestRes = none := by
  decide

/-- C1 witness: the amended invariant evaluated on a concrete record. -/
theorem selection_best_invariant_C1_witness :
    ∃ i : ℕ, ∃ hi : i < [((⟨1, 1, 3, 1⟩ : EvalRec), (50 : ℤ))].length,
      (runSelection false [((⟨1, 1, 3, 1⟩ : EvalRec), (50 : ℤ))]).bestRes =
        some (mkBest ([((⟨1, 1, 3, 1⟩ : EvalRec), (50 : ℤ))].get ⟨i, hi⟩)) ∧
      (∀ p ∈ [((⟨1, 1, 3, 1⟩ : EvalRec), (50 : ℤ))],
        p.1.normRes ≤ ([((⟨1, 1, 3, 1⟩ : EvalRec), (50 : ℤ))].get ⟨i, hi⟩).1.normRes) ∧
      (∀ j, ∀ hj : j < [((⟨1, 1, 3, 1⟩ : EvalRec), (50 : ℤ))].length, i < j →
        ([((⟨1, 1, 3, 1⟩ : EvalRec), (50 : ℤ))].get ⟨j, hj⟩).1.normRes <
          ([((⟨1, 1, 3, 1⟩ : EvalRec), (50 : ℤ))].get ⟨i, hi⟩).1.normRes) :=
  selection_best_invariant_C1 false [((⟨1, 1, 3, 1⟩ : EvalRec), (50 : ℤ))]
    ⟨(⟨1, 1, 3, 1⟩, 50), by simp, by norm_num⟩

/-- C2: the selection step updates — saving the checkpoint when the flag
is enabled and overwriting the persisted best record with the new
record's epoch — exactly when the new normalized average is `≥` the
running best; a strict drop is a no-op, and an exact tie performs the
full update (so the epoch pointer moves to the newer epoch). -/
theorem selection_update_iff_C2 (sb : Bool) (s : SelState) (r : EvalRec) (e : ℤ) :
    (s.bestScore ≤ r.normRes →
      considerStep sb s r e =
        ⟨r.normRes, some (mkBest (r, e)), s.saves + (if sb then 1 else 0)⟩) ∧
    (r.normRes < s.bestScore → considerStep sb s r e = s) ∧
    (r.normRes = s.bestScore →
      considerStep sb s r e =
        ⟨s.bestScore, some (mkBest (r, e)), s.saves + (if sb then 1 else 0)⟩) := by
  refine ⟨?_, ?_, ?_⟩
  · intro h
    rw [considerStep, if_pos h]
  · intro h
    rw [considerStep, if_neg (not_le.mpr h)]
  · intro h
    rw [considerStep, if_pos (le_of_eq h.symm), h]

/-- C2 witness: a tie (new normalized average `3` equals the running
best `3`) performs the full update. -/
theorem selection_update_iff_C2_witness :
    considerStep true ⟨3, none, 0⟩ ⟨1, 2, 3, 4⟩ 7 =
      ⟨3, some (mkBest (⟨1, 2, 3, 4⟩, 7)), 0 + (if true then 1 else 0)⟩ :=
  (selection_update_iff_C2 true ⟨3, none, 0⟩ ⟨1, 2, 3, 4⟩ 7).1 (le_refl 3)

/-- C5: replaying the same record sequence (same per-record epochs)
through a fresh selection state yields the identical final persisted
best record. -/
theorem selection_replay_idempotent_C5 (sb : Bool) (recs : List (EvalRec × ℤ)) :
    (runSelection sb (recs ++ recs)).bestRes = (runSelection sb recs).bestRes := by
  by_cases h : ∃ p ∈ recs, -100 ≤ p.1.normRes
  · rcases runSelection_char_some sb recs h with ⟨i, hi, _, c2, c3, c4⟩
    have h2 : ∃ p ∈ recs ++ recs, -100 ≤ p.1.normRes := by
      rcases h with ⟨p, hp, hle⟩
      exact ⟨p, List.mem_append_left _ hp, hle⟩
    rcases runSelection_char_some sb (recs ++ recs) h2 with ⟨i', hi', _, d2, d3, d4⟩
    have hlen : recs.length + i < (recs ++ recs).length := by
      rw [List.length_append]
      omega
    have hget : (recs ++ recs).get ⟨recs.length + i, hlen⟩ = recs.get ⟨i, hi⟩ := by
      have h := @List.getElem_append_right _ recs recs (recs.length + i)
        (Nat.le_add_right _ _) hlen
      simpa using h
    have hmax : ∀ p ∈ recs ++ recs,
        p.1.normRes ≤ ((recs ++ recs).get ⟨recs.length + i, hlen⟩).1.normRes := by
      rw [hget]
      intro p hp
      rcases List.mem_append.mp hp with hp | hp <;> exact c3 p hp
    have hlast : ∀ j, ∀ hj : j < (recs ++ recs).length, recs.length + i < j →
        ((recs ++ recs).get ⟨j, hj⟩).1.normRes <
          ((recs ++ recs).get ⟨recs.length + i, hlen⟩).1.normRes := by
      intro j hj hij
      rw [hget]
      have hj2 : j - recs.length < recs.length := by
        rw [List.length_append] at hj
        omega
      have hjget : (recs ++ recs).get ⟨j, hj⟩ = recs.get ⟨j - recs.length, hj2⟩ := by
        have h := @List.getElem_append_right _ recs recs j (by omega) hj
        simpa using h
      rw [hjget]
      exact c4 (j - recs.length) hj2 (by omega)
    have hii : i' = recs.length + i :=
      last_argmax_unique (recs ++ recs) i' (recs.length + i) hi' hlen d3 d4 hmax hlast
    subst hii
    rw [d2, c2, hget]
  · push_neg at h
    have h2 : ∀ p ∈ recs ++ recs, p.1.normRes < -100 := by
      intro p hp
      rcases List.mem_append.mp hp with hp | hp <;> exact h p hp
    rw [runSelection_all_below sb recs h, runSelection_all_below sb _ h2]

/-- C9: the running best is initialized to the concrete constant `-100`;
a record whose normalized average is strictly below `-100` never
triggers an update, from any reachable selection state; and in a run
whose evaluations all stay strictly below `-100`, the best record is
never written. -/
theorem best_init_sentinel_C9 :
    initSel.bestScore = -100 ∧
    (∀ (sb : Bool) (recs : List (EvalRec × ℤ)) (r : EvalRec) (e : ℤ),
      r.normRes < -100 →
      considerStep sb (runSelection sb recs) r e = runSelection sb recs) ∧
    (∀ (cfg : Config) (o : ℕ → EvalRec) (n : ℕ),
      (∀ k, k < n → (o k).normRes < -100) →
      (stateAfter cfg o n).sel.bestRes = none) := by
  refine ⟨rfl, ?_, ?_⟩
  · intro sb recs r e hr
    rw [considerStep, if_neg]
    push_neg
    exact lt_of_lt_of_le hr (neg_hundred_le_runSelection_bestScore sb recs)
  · intro cfg o n hall
    rw [stateAfter_sel, runSelection_all_below]
    · rfl
    · intro p hp
      rcases List.mem_map.mp hp with ⟨k, hk, hpk⟩
      rw [← hpk]
      exact hall k (List.mem_range.mp hk)

/-- C9 witness: a fresh state ignores a `-200` record, and a two-cycle
run whose evaluations score `-200` writes no best record. -/
theorem best_init_sentinel_C9_witness :
    considerStep false (runSelection false []) ⟨0, 0, -200, 0⟩ 1 = runSelection false [] ∧
    (stateAfter ⟨1, 1, 1, false, 0, "e"⟩ (fun _ => ⟨0, 0, -200, 0⟩) 2).sel.bestRes = none :=
  ⟨best_init_sentinel_C9.2.1 false [] ⟨0, 0, -200, 0⟩ 1 (by norm_num),
   best_init_sentinel_C9.2.2 ⟨1, 1, 1, false, 0, "e"⟩ (fun _ => ⟨0, 0, -200, 0⟩) 2
     (fun k _ => by norm_num)⟩

/-! ### Claim theorems: the epoch loop controller -/

/-- C4: with positive `num_epochs = a`, `num_steps_per_epoch = b`,
`eval_freq = c`, the run performs exactly `⌈a / c⌉ = (a + c - 1) / c`
training bursts, each of exactly `c * b` iterations and each followed by
exactly one evaluation; the epoch reported at (1-indexed) cycle `k` is
`k * c`; and the total training iterations overshoot the nominal budget
`a * b` by at most `(c - 1) * b`. -/
theorem cycle_cadence_C4 (a b c : ℕ) (ha : 1 ≤ a) (hb : 1 ≤ b) (hc : 1 ≤ c)
    (sb : Bool) (seed : ℤ) (env : String) (algo : String)
    (halgo : algo ∈ recognizedAlgos) (o : ℕ → EvalRec) :
    ∃ final : LoopState,
      train_agent algo ⟨(a : ℤ), (b : ℤ), (c : ℤ), sb, seed, env⟩ o ((a + c - 1) / c) =
        .finished final ∧
      final.cycles.length = (a + c - 1) / c ∧
      final.evaluations.length = (a + c - 1) / c ∧
      (∀ k, ∀ hk : k < final.cycles.length,
        (final.cycles.get ⟨k, hk⟩).burst = (c : ℤ) * (b : ℤ) ∧
        (final.cycles.get ⟨k, hk⟩).currEpoch = ((k : ℤ) + 1) * (c : ℤ)) ∧
      final.trainingIters = (((a + c - 1) / c : ℕ) : ℤ) * ((c : ℤ) * (b : ℤ)) ∧
      final.trainingIters ≤ (a : ℤ) * (b : ℤ) + ((c : ℤ) - 1) * (b : ℤ) := by
  rcases ceilDiv_facts a c ha hc with ⟨_, _, f3⟩
  set cfg : Config := ⟨(a : ℤ), (b : ℤ), (c : ℤ), sb, seed, env⟩ with hcfg
  set N := (a + c - 1) / c with hNdef
  refine ⟨stateAfter cfg o N, train_agent_finishes a b c ha hb hc sb seed env algo halgo o,
    ?_, ?_, ?_, ?_, ?_⟩
  · rw [stateAfter_cycles]
    simp
  · rw [stateAfter_evaluations]
    simp
  · intro k hk
    have hkN : k < N := by
      rw [stateAfter_cycles] at hk
      simpa using hk
    have hget : (stateAfter cfg o N).cycles.get ⟨k, hk⟩ = cycleLogAt cfg o k := by
      simp [stateAfter_cycles]
    rw [hget]
    constructor
    · rfl
    · show epochAt cfg k = ((k : ℤ) + 1) * (c : ℤ)
      rw [epochAt]
      have hrw : ((k : ℤ) + 1) * iterPerCycle cfg =
          (((k : ℤ) + 1) * (c : ℤ)) * (b : ℤ) := by
        show ((k : ℤ) + 1) * ((c : ℤ) * (b : ℤ)) = (((k : ℤ) + 1) * (c : ℤ)) * (b : ℤ)
        ring
      rw [hrw]
      exact Int.mul_fdiv_cancel _ (Int.natCast_ne_zero.mpr (by omega))
  · rw [stateAfter_trainingIters]
    rfl
  · rw [stateAfter_trainingIters]
    have hnat : N * c * b ≤ (a + c - 1) * b := Nat.mul_le_mul_right b f3
    have hcast : ((a + c - 1 : ℕ) : ℤ) = (a : ℤ) + (c : ℤ) - 1 := by
      have : 1 ≤ a + c := by omega
      push_cast [Nat.cast_sub this]
      ring
    calc ((N : ℕ) : ℤ) * iterPerCycle cfg = ((N * c * b : ℕ) : ℤ) := by
          show ((N : ℕ) : ℤ) * ((c : ℤ) * (b : ℤ)) = ((N * c * b : ℕ) : ℤ)
          push_cast
          ring
      _ ≤ (((a + c - 1) * b : ℕ) : ℤ) := by exact_mod_cast hnat
      _ = (a : ℤ) * (b : ℤ) + ((c : ℤ) - 1) * (b : ℤ) := by
          push_cast [hcast]
          ring

/-- C4 witness: the concrete instance `num_epochs=500`,
`num_steps_per_epoch=1000`, `eval_freq=50`: 10 cycles, 50000-iteration
bursts, epoch `50*k` at cycle `k`. -/
theorem cycle_cadence_C4_witness :
    (500 + 50 - 1) / 50 = 10 ∧
    ((50 : ℕ) : ℤ) * ((1000 : ℕ) : ℤ) = 50000 ∧
    ∃ final : LoopState,
      train_agent "bc" ⟨((500 : ℕ) : ℤ), ((1000 : ℕ) : ℤ), ((50 : ℕ) : ℤ), false, 0,
          "walker2d-expert-v2"⟩ (fun _ => (⟨0, 0, 0, 0⟩ : EvalRec)) ((500 + 50 - 1) / 50) =
        .finished final ∧
      final.cycles.length = (500 + 50 - 1) / 50 ∧
      final.evaluations.length = (500 + 50 - 1) / 50 ∧
      (∀ k, ∀ hk : k < final.cycles.length,
        (final.cycles.get ⟨k, hk⟩).burst = ((50 : ℕ) : ℤ) * ((1000 : ℕ) : ℤ) ∧
        (final.cycles.get ⟨k, hk⟩).currEpoch = ((k : ℤ) + 1) * ((50 : ℕ) : ℤ)) ∧
      final.trainingIters =
        (((500 + 50 - 1) / 50 : ℕ) : ℤ) * (((50 : ℕ) : ℤ) * ((1000 : ℕ) : ℤ)) ∧
      final.trainingIters ≤ ((500 : ℕ) : ℤ) * ((1000 : ℕ) : ℤ) +
        (((50 : ℕ) : ℤ) - 1) * ((1000 : ℕ) : ℤ) :=
  ⟨by norm_num, by norm_num,
    cycle_cadence_C4 500 1000 50 (by norm_num) (by norm_num) (by norm_num) false 0
      "walker2d-expert-v2" "bc" (by decide) (fun _ => ⟨0, 0, 0, 0⟩)⟩

/-- C10: with `num_steps_per_epoch ≥ 1` and `eval_freq ≥ 1` the loop
terminates after exactly `⌈num_epochs / eval_freq⌉` passes (`0` passes
when `num_epochs ≤ 0`, as `toNat` maps nonpositive ints to `0`); whereas
when `eval_freq * num_steps_per_epoch = 0` while
`num_epochs * num_steps_per_epoch > 0`, the loop never terminates: every
fuel is exhausted. -/
theorem loop_termination_C10 :
    (∀ (ne : ℤ) (b c : ℕ), 1 ≤ b → 1 ≤ c →
      ∀ (sb : Bool) (seed : ℤ) (env : String) (algo : String),
        algo ∈ recognizedAlgos → ∀ o : ℕ → EvalRec,
        ∃ final : LoopState,
          train_agent algo ⟨ne, (b : ℤ), (c : ℤ), sb, seed, env⟩ o ((ne.toNat + c - 1) / c) =
            .finished final ∧
          final.cycles.length = (ne.toNat + c - 1) / c) ∧
    (∀ (cfg : Config) (algo : String), algo ∈ recognizedAlgos →
      ∀ (o : ℕ → EvalRec) (fuel : ℕ),
        iterPerCycle cfg = 0 → 0 < maxTimesteps cfg →
        train_agent algo cfg o fuel = .running) := by
  constructor
  · intro ne b c hb hc sb seed env algo halgo o
    by_cases hne : 1 ≤ ne
    · have hcast : ((ne.toNat : ℕ) : ℤ) = ne := Int.toNat_of_nonneg (by omega)
      have ha : 1 ≤ ne.toNat := by omega
      have hfin := train_agent_finishes ne.toNat b c ha hb hc sb seed env algo halgo o
      rw [hcast] at hfin
      refine ⟨_, hfin, ?_⟩
      rw [stateAfter_cycles]
      simp
    · have hN : (ne.toNat + c - 1) / c = 0 := by
        have h0 : ne.toNat = 0 := by omega
        rw [h0, Nat.zero_add, Nat.div_eq_of_lt (by omega)]
      rw [hN]
      refine ⟨initLoop, ?_, rfl⟩
      rw [train_agent]
      apply runLoop_stop
      show ¬ initLoop.trainingIters < maxTimesteps ⟨ne, (b : ℤ), (c : ℤ), sb, seed, env⟩
      push_neg
      show ne * (b : ℤ) ≤ 0
      have hb0 : (0 : ℤ) ≤ (b : ℤ) := by positivity
      have hne0 : ne ≤ 0 := by omega
      nlinarith
  · intro cfg algo halgo o fuel h0 hpos
    rw [train_agent, decide_eq_true halgo]
    apply runLoop_never cfg o h0
    exact hpos

/-- C10 witness: a `num_epochs = -3` run finishes with zero passes, and
a run with `eval_freq = 0` but positive budget spins forever (shown at
fuel 7). -/
theorem loop_termination_C10_witness :
    (∃ final : LoopState,
      train_agent "bc" ⟨(-3 : ℤ), ((1 : ℕ) : ℤ), ((1 : ℕ) : ℤ), false, 0, "e"⟩
          (fun _ => (⟨0, 0, 0, 0⟩ : EvalRec)) (((-3 : ℤ).toNat + 1 - 1) / 1) =
        .finished final ∧
      final.cycles.length = ((-3 : ℤ).toNat + 1 - 1) / 1) ∧
    train_agent "bc" ⟨5, 1, 0, false, 0, "e"⟩ (fun _ => (⟨0, 0, 0, 0⟩ : EvalRec)) 7 =
      .running :=
  ⟨loop_termination_C10.1 (-3) 1 1 (le_refl 1) (le_refl 1) false 0 "e" "bc" (by decide)
      (fun _ => ⟨0, 0, 0, 0⟩),
   loop_termination_C10.2 ⟨5, 1, 0, false, 0, "e"⟩ "bc" (by decide)
      (fun _ => ⟨0, 0, 0, 0⟩) 7 (by decide) (by decide)⟩

/-- C6 (amended): with an unrecognized algorithm name AND a positive
training budget (`num_epochs * num_steps_per_epoch > 0`), the run fails
(UnboundLocalError at the first `agent.train` reference) before any
training iteration is performed: the state at the raise has zero
training iterations, no evaluations and no completed cycles. -/
theorem unknown_algo_C6 (algo : String) (cfg : Config) (o : ℕ → EvalRec) (fuel : ℕ)
    (halgo : algo ∉ recognizedAlgos) (hpos : 0 < maxTimesteps cfg) (hfuel : 1 ≤ fuel) :
    train_agent algo cfg o fuel = .raised initLoop ∧
    initLoop.trainingIters = 0 ∧ initLoop.evaluations = [] ∧ initLoop.cycles = [] := by
  refine ⟨?_, rfl, rfl, rfl⟩
  rw [train_agent, decide_eq_false halgo]
  obtain ⟨f, rfl⟩ : ∃ f, fuel = f + 1 := ⟨fuel - 1, by omega⟩
  exact runLoop_raised cfg o f initLoop hpos

/-- C6 counterexample to the claim as stated: a run configured with the
unrecognized algorithm name `"pcq"` but `num_epochs = 0` never enters
the loop, so it completes normally — no fatal error is ever raised. -/
theorem unknown_algo_C6_cex :
    train_agent "pcq" ⟨0, 1000, 50, false, 0, "walker2d-expert-v2"⟩
      (fun _ => ⟨0, 0, 0, 0⟩) 3 = .finished initLoop := by
  rfl

/-- C6 witness: an unrecognized algorithm with the default positive
budget raises before any training. -/
theorem unknown_algo_C6_witness :
    train_agent "pcq" ⟨500, 1000, 50, false, 0, "walker2d-expert-v2"⟩
      (fun _ => (⟨0, 0, 0, 0⟩ : EvalRec)) 1 = .raised initLoop ∧
    initLoop.trainingIters = 0 ∧ initLoop.evaluations = [] ∧ initLoop.cycles = [] :=
  unknown_algo_C6 "pcq" ⟨500, 1000, 50, false, 0, "walker2d-expert-v2"⟩
    (fun _ => ⟨0, 0, 0, 0⟩) 1 (by decide) (by norm_num [maxTimesteps]) (le_refl 1)

/-- C8: the evaluation history is append-only: the state after `n`
cycles holds exactly the first `n` oracle records in order (so earlier
entries are never modified), each cycle appends exactly one record, and
the snapshot persisted by `np.save` during cycle `k+1` is exactly the
full history up to and including that cycle's fresh record. -/
theorem history_append_only_C8 (cfg : Config) (o : ℕ → EvalRec) (n : ℕ) :
    (stateAfter cfg o (n + 1)).evaluations = (stateAfter cfg o n).evaluations ++ [o n] ∧
    (stateAfter cfg o n).evaluations = (List.range n).map o ∧
    (∀ k, ∀ hk : k < (stateAfter cfg o n).cycles.length,
      ((stateAfter cfg o n).cycles.get ⟨k, hk⟩).savedEvals = (List.range (k + 1)).map o) := by
  refine ⟨?_, stateAfter_evaluations cfg o n, ?_⟩
  · rw [stateAfter, cycleBody_evaluations, stateAfter_evaluations]
    simp
  · intro k hk
    have hget : (stateAfter cfg o n).cycles.get ⟨k, hk⟩ = cycleLogAt cfg o k := by
      simp [stateAfter_cycles]
    rw [hget]
    rfl

/-- C8 witness: in a concrete two-cycle run, the snapshot persisted at
the second cycle is the two-record history. -/
theorem history_append_only_C8_witness :
    ((stateAfter ⟨2, 1, 1, false, 0, "e"⟩ (fun k => (⟨(k : ℚ), 0, 0, 0⟩ : EvalRec)) 2).cycles.get
        ⟨1, by decide⟩).savedEvals =
      (List.range (1 + 1)).map (fun k => (⟨(k : ℚ), 0, 0, 0⟩ : EvalRec)) :=
  (history_append_only_C8 ⟨2, 1, 1, false, 0, "e"⟩
    (fun k => (⟨(k : ℚ), 0, 0, 0⟩ : EvalRec)) 2).2.2 1 (by decide)

/-! ### Claim theorems: the rollout evaluator -/

/-- C7: every call of `eval_policy` performs exactly one environment
construction, namely `gym.make(env_name)`, and exactly one seeding,
namely with `seed + 100`; and in the run loop, every cycle passes the
unchanged training seed `args.seed` as the `seed` argument of
`eval_policy`, so every single evaluation cycle constructs one fresh
environment seeded with `args.seed + 100`. -/
theorem eval_env_fresh_seed_C7 :
    (∀ (env : String) (seed : ℤ) (f : ℚ → ℚ) (epR : ℕ → List ℚ) (n : ℕ),
      (eval_policy env seed f epR n).2.filter EnvOp.isMake = [EnvOp.make env] ∧
      (eval_policy env seed f epR n).2.filter EnvOp.isSeed = [EnvOp.seed (seed + 100)]) ∧
    (∀ (cfg : Config) (o : ℕ → EvalRec) (n k : ℕ)
      (hk : k < (stateAfter cfg o n).cycles.length),
      ((stateAfter cfg o n).cycles.get ⟨k, hk⟩).evalSeed = cfg.seed) := by
  constructor
  · intro env seed f epR n
    have hops : (eval_policy env seed f epR n).2 =
        EnvOp.make env :: EnvOp.seed (seed + 100) ::
          (List.range n).flatMap (fun i => EnvOp.reset :: (epR i).map (fun _ => EnvOp.step)) :=
      rfl
    have hrest : ∀ op ∈ (List.range n).flatMap
        (fun i => EnvOp.reset :: (epR i).map (fun _ => EnvOp.step)),
        EnvOp.isMake op = false ∧ EnvOp.isSeed op = false := by
      intro op hop
      rcases List.mem_flatMap.mp hop with ⟨i, _, hop⟩
      rcases List.mem_cons.mp hop with h | h
      · rw [h]
        exact ⟨rfl, rfl⟩
      · rcases List.mem_map.mp h with ⟨x, _, hx⟩
        rw [← hx]
        exact ⟨rfl, rfl⟩
    constructor
    · rw [hops, List.filter_cons_of_pos rfl,
        List.filter_cons_of_neg (by simp [EnvOp.isSeed, EnvOp.isMake]),
        List.filter_eq_nil_iff.mpr (fun a ha => by simp [(hrest a ha).1])]
    · rw [hops, List.filter_cons_of_neg (by simp [EnvOp.isSeed, EnvOp.isMake]),
        List.filter_cons_of_pos rfl,
        List.filter_eq_nil_iff.mpr (fun a ha => by simp [(hrest a ha).2])]
  · intro cfg o n k hk
    have hget : (stateAfter cfg o n).cycles.get ⟨k, hk⟩ = cycleLogAt cfg o k := by
      simp [stateAfter_cycles]
    rw [hget]
    rfl

/-- C7 witness: the environment-operation trace of a concrete call, and
the seed recorded at the first cycle of a concrete run. -/
theorem eval_env_fresh_seed_C7_witness :
    ((eval_policy "hopper-medium-v2" 5 (fun r => r) (fun _ => [1]) 2).2.filter
        EnvOp.isMake = [EnvOp.make "hopper-medium-v2"] ∧
      (eval_policy "hopper-medium-v2" 5 (fun r => r) (fun _ => [1]) 2).2.filter
        EnvOp.isSeed = [EnvOp.seed (5 + 100)]) ∧
    ((stateAfter ⟨1, 1, 1, false, 42, "e"⟩ (fun _ => (⟨0, 0, 0, 0⟩ : EvalRec)) 1).cycles.get
        ⟨0, by decide⟩).evalSeed = 42 :=
  ⟨eval_env_fresh_seed_C7.1 "hopper-medium-v2" 5 (fun r => r) (fun _ => [1]) 2,
   eval_env_fresh_seed_C7.2 ⟨1, 1, 1, false, 42, "e"⟩ (fun _ => ⟨0, 0, 0, 0⟩) 1 0 (by decide)⟩

/-- C3: for every list of per-episode raw returns produced by
`eval_policy`, the reported normalized average is the normalizer applied
once to the raw mean (not the mean of per-episode normalized scores),
while both standard deviations are population standard deviations — the
normalized one over the per-episode normalized list; on raw returns
`[10, 20, 30]` with normalizer `r ↦ r / 100` this gives
`avg_raw = 20`, `std_raw = 8.1649... = √(200/3)`,
`avg_normalized = 0.2`, `std_normalized = 0.08165... = √(1/150)`. -/
theorem eval_aggregation_C3 :
    (∀ (env : String) (seed : ℤ) (f : ℚ → ℚ) (epR : ℕ → List ℚ) (n : ℕ),
      (eval_policy env seed f epR n).1.avgReward =
        listMean ((List.range n).map fun i => (epR i).sum) ∧
      (eval_policy env seed f epR n).1.stdReward =
        pstd ((List.range n).map fun i => (epR i).sum) ∧
      (eval_policy env seed f epR n).1.avgNormScore =
        f (listMean ((List.range n).map fun i => (epR i).sum)) ∧
      (eval_policy env seed f epR n).1.stdNormScore =
        pstd (((List.range n).map fun i => (epR i).sum).map f)) ∧
    (eval_policy "e" 0 (fun r => r / 100) (fun i => [10 + 10 * (i : ℚ)]) 3).1.avgReward = 20 ∧
    (eval_policy "e" 0 (fun r => r / 100) (fun i => [10 + 10 * (i : ℚ)]) 3).1.avgNormScore
      = 1 / 5 ∧
    ((8.1649 : ℝ) <
        (eval_policy "e" 0 (fun r => r / 100) (fun i => [10 + 10 * (i : ℚ)]) 3).1.stdReward ∧
      (eval_policy "e" 0 (fun r => r / 100) (fun i => [10 + 10 * (i : ℚ)]) 3).1.stdReward
        < (8.165 : ℝ)) ∧
    ((0.08164 : ℝ) <
        (eval_policy "e" 0 (fun r => r / 100) (fun i => [10 + 10 * (i : ℚ)]) 3).1.stdNormScore ∧
      (eval_policy "e" 0 (fun r => r / 100) (fun i => [10 + 10 * (i : ℚ)]) 3).1.stdNormScore
        < (0.08166 : ℝ)) := by
  have hscores : ((List.range 3).map fun i : ℕ => ([(10 : ℚ) + 10 * (i : ℚ)]).sum) =
      [10, 20, 30] := by
    norm_num [List.range_succ]
  have hv1 : pvarQ [(10 : ℚ), 20, 30] = 200 / 3 := by
    norm_num [pvarQ, listMean]
  have hv2 : pvarQ ([(10 : ℚ), 20, 30].map fun r => r / 100) = 1 / 150 := by
    norm_num [pvarQ, listMean]
  have hA : (eval_policy "e" 0 (fun r => r / 100) (fun i => [10 + 10 * (i : ℚ)]) 3).1.avgReward
      = listMean [(10 : ℚ), 20, 30] := by
    rw [← hscores]
    rfl
  have hS : (eval_policy "e" 0 (fun r => r / 100) (fun i => [10 + 10 * (i : ℚ)]) 3).1.stdReward
      = pstd [(10 : ℚ), 20, 30] := by
    rw [← hscores]
    rfl
  have hB : (eval_policy "e" 0 (fun r => r / 100)
        (fun i => [10 + 10 * (i : ℚ)]) 3).1.avgNormScore
      = listMean [(10 : ℚ), 20, 30] / 100 := by
    rw [← hscores]
    rfl
  have hN : (eval_policy "e" 0 (fun r => r / 100)
        (fun i => [10 + 10 * (i : ℚ)]) 3).1.stdNormScore
      = pstd ([(10 : ℚ), 20, 30].map fun r => r / 100) := by
    rw [← hscores]
    rfl
  have hmean : listMean [(10 : ℚ), 20, 30] = 20 := by
    norm_num [listMean]
  have hc1 : (((200 : ℚ) / 3 : ℚ) : ℝ) = 200 / 3 := by
    norm_num
  have hc2 : (((1 : ℚ) / 150 : ℚ) : ℝ) = 1 / 150 := by
    norm_num
  refine ⟨fun env seed f epR n => ⟨rfl, rfl, rfl, rfl⟩, ?_, ?_, ⟨?_, ?_⟩, ⟨?_, ?_⟩⟩
  · rw [hA, hmean]
  · rw [hB, hmean]
    norm_num
  · rw [hS, pstd, hv1, hc1, Real.lt_sqrt (by norm_num)]
    norm_num
  · rw [hS, pstd, hv1, hc1, Real.sqrt_lt' (by norm_num)]
    norm_num
  · rw [hN, pstd, hv2, hc2, Real.lt_sqrt (by norm_num)]
    norm_num
  · rw [hN, pstd, hv2, hc2, Real.sqrt_lt' (by norm_num)]
    norm_num
